import Mathlib

/-!
Verification development for the `virterm` terminal-automation engine.

Shallow embedding of the Rust sources:
  * `src/command.rs` — the line-oriented script parser (byte-driven);
  * `src/main.rs`    — the script driver (`State`, `main_loop` dispatch);
  * `src/proc.rs`    — the PTY process supervisor (`Proc::wait`,
    `Proc::send_key`, the `wait_text` polling loops);
  * `src/mouse.rs`   — the SGR-1006 mouse encoder;
  * `src/dump_png.rs`— the glyph rasterization closure.

Machine integers are modelled as `Nat` with explicit `% 2^w` at the points
where the Rust code performs wrapping (release-mode) arithmetic on `u16`
or `u32`.  Fallible Rust functions returning `anyhow::Result` are modelled
with `Except String`.
-/

namespace VT


/-! ## Script parser (`src/command.rs`)

`CommandParser` holds `text: &[u8]` and `pos: usize`; every access casts a
byte to `char` (`*ch as char`).  We model the remaining input `text[pos..]`
as a `List Char` of byte-characters (each code point < 256); `peek_char`
returns the head or `'\0'` past the end, exactly as
`self.text.get(self.pos).unwrap_or(&0)` does. -/

/-- `CommandParser::peek_char`: byte at the cursor cast to `char`, `'\0'` at
the end of the buffer. -/
def peekChar : List Char → Char
  | [] => '\x00'
  | c :: _ => c

/-- Rust `char::is_whitespace` restricted to byte-range characters, the only
characters a `CommandParser` can produce (Unicode `White_Space` below
U+0100: TAB, LF, VT, FF, CR, SPACE, NEL, NBSP). -/
def rustIsWhitespace (c : Char) : Bool :=
  c = '\x09' || c = '\x0a' || c = '\x0b' || c = '\x0c' || c = '\x0d' ||
  c = ' ' || c = '\x85' || c = '\xa0'

/-- `CommandParser::skip_spaces`: advance while the current character is
whitespace (the `'\0'` guard in the source is redundant — NUL is not
whitespace — and the past-the-end `'\0'` stops the loop). -/
def skipSpaces : List Char → List Char
  | [] => []
  | c :: rest => if rustIsWhitespace c then skipSpaces rest else c :: rest

/-- `CommandParser::take_string`'s loop after the opening quote: `take_char`
until an unescaped `'"'`; a consumed `'\0'` (real NUL byte or end of
buffer) is "Unclosed string literal"; `\\ \" \n \t` escapes; any other
escape errors. -/
def takeStringLoop : List Char → String → Except String (String × List Char)
  | [], _ => .error "Unclosed string literal"
  | c :: rest, buf =>
    if c = '"' then .ok (buf, rest)
    else if c = '\x00' then .error "Unclosed string literal"
    else if c = '\\' then
      match rest with
      | [] =>
        -- take_char at the end of the buffer yields '\0', which is not a
        -- recognized escape character
        .error ("Unexpected escape character: \\" ++ (Char.toString '\x00'))
      | e :: rest2 =>
        if e = '\\' then takeStringLoop rest2 (buf.push '\\')
        else if e = '"' then takeStringLoop rest2 (buf.push '"')
        else if e = 'n' then takeStringLoop rest2 (buf.push '\n')
        else if e = 't' then takeStringLoop rest2 (buf.push '\t')
        else .error ("Unexpected escape character: \\" ++ e.toString)
    else takeStringLoop rest (buf.push c)

/-- `CommandParser::take_string`: `expect_char('"')` then the loop. -/
def takeString (input : List Char) : Except String (String × List Char) :=
  match input with
  | [] => .error ("Expected char: \" (got " ++ (Char.toString '\x00') ++ ")")
  | c :: rest =>
    if c = '"' then takeStringLoop rest ""
    else .error ("Expected char: \" (got " ++ c.toString ++ ")")

/-- `CommandParser::take_ident`: greedily take ASCII alphanumerics and
`'_'`. -/
def takeIdentLoop : List Char → String → String × List Char
  | [], buf => (buf, [])
  | c :: rest, buf =>
    if c.isAlphanum || c = '_' then takeIdentLoop rest (buf.push c)
    else (buf, c :: rest)

/-- `CommandParser::take_number`: greedily take decimal digits into a `u32`
accumulator (`buf *= 10; buf += digit`, wrapping in release builds). -/
def takeNumber : List Char → Nat → Nat × List Char
  | [], acc => (acc, [])
  | c :: rest, acc =>
    if c.isDigit then takeNumber rest ((acc * 10 + (c.toNat - 48)) % 4294967296)
    else (acc, c :: rest)

/-- `CommandParser::take_key`'s loop: `take_char` until `'>'` (included in
the buffer; the leading `'<'` is still at the cursor when the loop starts,
so it is included too); a consumed `'\0'` is "Unclosed key literal". -/
def takeKeyLoop : List Char → String → Except String (String × List Char)
  | [], _ => .error "Unclosed key literal"
  | c :: rest, buf =>
    if c = '>' then .ok (buf.push '>', rest)
    else if c = '\x00' then .error "Unclosed key literal"
    else takeKeyLoop rest (buf.push c)

/-- The key front-end the parser and driver are parameterized over:
`Key::parse` and `Key::from_char` live in `src/key.rs`, outside the
embedded core; every theorem below holds for an arbitrary key model. -/
structure KeyFns (κ : Type) where
  parse : String → Except String κ
  fromChar : Char → κ

/-- `CommandParser::take_key`: collect the `<...>` token and hand it to
`Key::parse`. -/
def takeKey {κ : Type} (ks : KeyFns κ) (input : List Char) :
    Except String (κ × List Char) :=
  match takeKeyLoop input "" with
  | .error e => .error e
  | .ok (buf, rest) =>
    match ks.parse buf with
    | .error e => .error e
    | .ok k => .ok (k, rest)

instance {ε α : Type} [DecidableEq ε] [DecidableEq α] :
    DecidableEq (Except ε α)
  | .error e, .error f =>
    if h : e = f then .isTrue (by rw [h])
    else .isFalse (fun hc => h (Except.error.inj hc))
  | .error _, .ok _ => .isFalse (fun hc => Except.noConfusion hc)
  | .ok _, .error _ => .isFalse (fun hc => Except.noConfusion hc)
  | .ok a, .ok b =>
    if h : a = b then .isTrue (by rw [h])
    else .isFalse (fun hc => h (Except.ok.inj hc))

/-- The parser's `Token` enum. `Duration` is carried in milliseconds
(`Duration::from_millis n` ↦ `n`, `Duration::from_secs n` ↦ `1000 * n`). -/
inductive Token (κ : Type) where
  | ident (s : String)
  | str (s : String)
  | arg (s : String)
  | int (n : Nat)
  | dur (ms : Nat)
  | key (k : κ)
  | eof
  deriving DecidableEq

/-- `CommandParser::next_token`: skip whitespace, then dispatch on the
current character exactly in source order (`'"'`, ASCII alphabetic, `'<'`,
decimal digit, `'#'`, `'\0'`, error). -/
def nextToken {κ : Type} (ks : KeyFns κ) (input : List Char) :
    Except String (Token κ × List Char) :=
  let input := skipSpaces input
  let ch := peekChar input
  if ch = '"' then
    match takeString input with
    | .error e => .error e
    | .ok (s, rest) => .ok (.str s, rest)
  else if ch.isAlpha then
    let (s, rest) := takeIdentLoop input ""
    if peekChar rest = ':' then .ok (.arg s, rest.tail)
    else .ok (.ident s, rest)
  else if ch = '<' then
    match takeKey ks input with
    | .error e => .error e
    | .ok (k, rest) => .ok (.key k, rest)
  else if ch.isDigit then
    let (n, rest) := takeNumber input 0
    if (peekChar rest).isAlpha then
      let (sfx, rest2) := takeIdentLoop rest ""
      if sfx = "ms" then .ok (.dur n, rest2)
      else if sfx = "s" then .ok (.dur (1000 * n), rest2)
      else .error ("Unknown number suffix: " ++ sfx)
    else .ok (.int n, rest)
  else if ch = '#' then .ok (.eof, input)
  else if ch = '\x00' then .ok (.eof, input)
  else .error ("Unexpected char: " ++ ch.toString)

/-! ## The `Command` enum and `CommandParser::parse` -/

/-- The `Command` enum of `src/command.rs`.  Durations are milliseconds. -/
inductive Command (κ : Type) where
  | start (args : List String)
  | sendKeys (keys : List κ)
  | kill
  | wait
  | waitText (text : String) (timeoutMs : Nat)
  | sleep (ms : Nat)
  | print (msg : String)
  | dumpPng (path : String)
  | dumpTxt (path : String)
  deriving DecidableEq

/-! The three command-arm token loops below consume tokens until `Eof`.
Every fetched non-`Eof` token consumes at least one byte
(`nextToken_length`), so a loop over a buffer of `n` remaining bytes
iterates at most `n + 1` times.  Each loop is therefore defined by
structural recursion on a fuel bounded below by the buffer length; the
wrapper passes `input.length + 1`, which the characterization lemmas show
is enough, making the fuel-exhausted arm dead code. -/

/-- The `"start"` arm's token loop: strings accumulate, `Eof` finishes
(at least one argument required), anything else errors. -/
def startLoopF {κ : Type} (ks : KeyFns κ) :
    Nat → List Char → List String → Except String (Command κ)
  | 0, _, _ => .error "unreachable: parser fuel exhausted"
  | fuel + 1, input, args =>
    match nextToken ks input with
    | .error e => .error e
    | .ok (.str arg, rest) => startLoopF ks fuel rest (args ++ [arg])
    | .ok (.eof, _) =>
      if args.length = 0 then
        .error "The 'start' command expects at least one argument"
      else .ok (.start args)
    | .ok (.ident _, _) | .ok (.arg _, _) | .ok (.int _, _)
    | .ok (.dur _, _) | .ok (.key _, _) =>
      .error "The 'start' command accepts strings only"

def startLoop {κ : Type} (ks : KeyFns κ) (input : List Char)
    (args : List String) : Except String (Command κ) :=
  startLoopF ks (input.length + 1) input args

/-- The `"send_keys"` arm's token loop: each string expands to its
characters through `Key::from_char`; key tokens append directly. -/
def sendKeysLoopF {κ : Type} (ks : KeyFns κ) :
    Nat → List Char → List κ → Except String (Command κ)
  | 0, _, _ => .error "unreachable: parser fuel exhausted"
  | fuel + 1, input, keys =>
    match nextToken ks input with
    | .error e => .error e
    | .ok (.str s, rest) =>
      sendKeysLoopF ks fuel rest (keys ++ s.data.map ks.fromChar)
    | .ok (.key k, rest) => sendKeysLoopF ks fuel rest (keys ++ [k])
    | .ok (.eof, _) => .ok (.sendKeys keys)
    | .ok (.ident _, _) | .ok (.arg _, _) | .ok (.int _, _)
    | .ok (.dur _, _) =>
      .error "The 'send_keys' command accepts strings and keys only"

def sendKeysLoop {κ : Type} (ks : KeyFns κ) (input : List Char)
    (keys : List κ) : Except String (Command κ) :=
  sendKeysLoopF ks (input.length + 1) input keys

/-- The `"wait_text"` arm's token loop: at most one string (the text), an
optional `timeout:` named argument followed immediately by a duration
token, `Eof` finishes (a string must have been seen), anything else
errors. -/
def waitTextLoopF {κ : Type} (ks : KeyFns κ) :
    Nat → List Char → Option String → Nat → Except String (Command κ)
  | 0, _, _, _ => .error "unreachable: parser fuel exhausted"
  | fuel + 1, input, text, timeout =>
    match nextToken ks input with
    | .error e => .error e
    | .ok (.str s, rest) =>
      match text with
      | some _ => .error "The 'wait_text' command expects only one string"
      | none => waitTextLoopF ks fuel rest (some s) timeout
    | .ok (.arg a, rest) =>
      if a = "timeout" then
        match nextToken ks rest with
        | .error e => .error e
        | .ok (.dur t, rest2) => waitTextLoopF ks fuel rest2 text t
        | .ok (.ident _, _) | .ok (.str _, _) | .ok (.arg _, _)
        | .ok (.int _, _) | .ok (.key _, _) | .ok (.eof, _) =>
          .error "The 'timeout' arg expects a duration"
      else .error ("Unexpected argument '" ++ a ++ "'")
    | .ok (.eof, _) =>
      match text with
      | some t => .ok (.waitText t timeout)
      | none => .error "The 'wait_text' command expects a string"
    | .ok (.ident _, _) | .ok (.int _, _) | .ok (.dur _, _)
    | .ok (.key _, _) =>
      .error "The 'wait_text' command expects a string"

def waitTextLoop {κ : Type} (ks : KeyFns κ) (input : List Char)
    (text : Option String) (timeout : Nat) : Except String (Command κ) :=
  waitTextLoopF ks (input.length + 1) input text timeout

/-- `CommandParser::parse` (and thus `Command::parse`): fetch the first
token and dispatch on the command identifier; a bare `Eof` (blank or
comment line) is "no command". -/
def parseCmd {κ : Type} (ks : KeyFns κ) (input : List Char) :
    Except String (Option (Command κ)) :=
  match nextToken ks input with
  | .error e => .error e
  | .ok (.ident s, rest) =>
    if s = "start" then (startLoop ks rest []).map some
    else if s = "send_keys" then (sendKeysLoop ks rest []).map some
    else if s = "wait_text" then (waitTextLoop ks rest none 1000).map some
    else if s = "kill" then .ok (some .kill)
    else if s = "wait" then .ok (some .wait)
    else if s = "sleep" then
      match nextToken ks rest with
      | .error e => .error e
      | .ok (.dur d, _) => .ok (some (.sleep d))
      | .ok _ => .error "Expected duration"
    else if s = "print" then
      match nextToken ks rest with
      | .error e => .error e
      | .ok (.str msg, _) => .ok (some (.print msg))
      | .ok _ => .error "Expected string"
    else if s = "dump_png" then
      match nextToken ks rest with
      | .error e => .error e
      | .ok (.str file, _) => .ok (some (.dumpPng file))
      | .ok _ => .error "Expected string"
    else if s = "dump_txt" then
      match nextToken ks rest with
      | .error e => .error e
      | .ok (.str file, _) => .ok (some (.dumpTxt file))
      | .ok _ => .error "Expected string"
    else .error ("Unknown command: " ++ s)
  | .ok (.eof, _) => .ok none
  | .ok (.str _, _) | .ok (.arg _, _) | .ok (.int _, _)
  | .ok (.dur _, _) | .ok (.key _, _) =>
    .error "Expected command identifier"

/-- The parser's byte view of a Rust `&str` (`text.as_bytes()`): the UTF-8
encoding of the string, each byte cast to `char` on access. -/
def strBytes (s : String) : List Char :=
  (s.data.flatMap String.utf8EncodeChar).map (fun b => Char.ofNat b.toNat)

/-- `Command::parse` on a line given as a Rust `&str`: the parser walks the
UTF-8 bytes of the string, each byte cast to `char`. -/
def commandParse {κ : Type} (ks : KeyFns κ) (line : String) :
    Except String (Option (Command κ)) :=
  parseCmd ks (strBytes line)

/-- The maximal token list of a line: repeated `next_token` until `Eof`
(exactly the stream the command-arm loops consume), with the same fuel
discipline as the loops. -/
def lineTokensF {κ : Type} (ks : KeyFns κ) :
    Nat → List Char → Except String (List (Token κ))
  | 0, _ => .error "unreachable: parser fuel exhausted"
  | fuel + 1, input =>
    match nextToken ks input with
    | .error e => .error e
    | .ok (.eof, _) => .ok []
    | .ok (.ident s, rest) => (lineTokensF ks fuel rest).map (.ident s :: ·)
    | .ok (.str s, rest) => (lineTokensF ks fuel rest).map (.str s :: ·)
    | .ok (.arg s, rest) => (lineTokensF ks fuel rest).map (.arg s :: ·)
    | .ok (.int n, rest) => (lineTokensF ks fuel rest).map (.int n :: ·)
    | .ok (.dur d, rest) => (lineTokensF ks fuel rest).map (.dur d :: ·)
    | .ok (.key k, rest) => (lineTokensF ks fuel rest).map (.key k :: ·)

def lineTokens {κ : Type} (ks : KeyFns κ) (input : List Char) :
    Except String (List (Token κ)) :=
  lineTokensF ks (input.length + 1) input

/-- The string tokens of a token list, in order. -/
def strTokens {κ : Type} : List (Token κ) → List String
  | [] => []
  | .str s :: ts => s :: strTokens ts
  | .ident _ :: ts | .arg _ :: ts | .int _ :: ts
  | .dur _ :: ts | .key _ :: ts | .eof :: ts => strTokens ts

/-- Does the token list contain a `timeout:` named argument? -/
def hasTimeoutArg {κ : Type} : List (Token κ) → Bool
  | [] => false
  | .arg a :: ts => a = "timeout" || hasTimeoutArg ts
  | .ident _ :: ts | .str _ :: ts | .int _ :: ts
  | .dur _ :: ts | .key _ :: ts | .eof :: ts => hasTimeoutArg ts

/-- The bytes of the command identifier `wait_text`. -/
def waitTextChars : List Char := ['w', 'a', 'i', 't', '_', 't', 'e', 'x', 't']

/-! ## Script driver (`src/main.rs`)

`State` holds `proc: Option<Proc>`; `main_loop` dispatches each parsed
command.  The operations performed on an installed `Proc` (spawning,
key writes, kill, wait, the `wait_text` poll, the dumps) do I/O; they are
abstracted as the `DriverOps` parameter, which an arm may call only after
the slot guard from the source has passed.  `send_key` returns `()` in the
source (no `?`), so `sendKey` here is total. -/

structure DriverOps (κ π : Type) where
  /-- `Proc::start` (may fail: spawn errors propagate). -/
  start : List String → Except String π
  /-- `Proc::send_key` (returns unit; encoding failures only logged). -/
  sendKey : π → κ → π
  /-- `proc.killer.kill()` (propagated with `?`). -/
  kill : π → Except String Unit
  /-- `proc.wait().await` (propagated with `?`; consumes the one-shot). -/
  wait : π → Except String π
  /-- the `tokio::time::timeout(..)` poll of `WaitText` (may time out). -/
  waitText : π → String → Nat → Except String Unit
  /-- `dump_png(screen, path)` (propagated with `?`). -/
  dumpPng : π → String → Except String Unit
  /-- `dump_txt(screen, path)` (propagated with `?`). -/
  dumpTxt : π → String → Except String Unit

/-- `State { proc: Option<Proc> }` of `src/main.rs`. -/
structure DriverState (π : Type) where
  proc : Option π
  deriving DecidableEq

/-- One dispatch step of `main_loop` on a parsed command, following the
source arm by arm.  `State::proc` bails "Process has not been started" on
an empty slot; `State::start_prog` bails "Process was already started"
when the slot is full.  `Sleep` and `Print` never touch the slot. -/
def execCommand {κ π : Type} (ops : DriverOps κ π) (st : DriverState π) :
    Command κ → Except String (DriverState π)
  | .start args =>
    match st.proc with
    | some _ => .error "Process was already started"
    | none =>
      match ops.start args with
      | .error e => .error e
      | .ok p => .ok ⟨some p⟩
  | .sendKeys keys =>
    match st.proc with
    | none => .error "Process has not been started"
    | some p => .ok ⟨some (keys.foldl ops.sendKey p)⟩
  | .kill =>
    match st.proc with
    | none => .error "Process has not been started"
    | some p =>
      match ops.kill p with
      | .error e => .error e
      | .ok () => .ok st
  | .wait =>
    match st.proc with
    | none => .error "Process has not been started"
    | some p =>
      match ops.wait p with
      | .error e => .error e
      | .ok p2 => .ok ⟨some p2⟩
  | .waitText text timeoutMs =>
    match st.proc with
    | none => .error "Process has not been started"
    | some p =>
      match ops.waitText p text timeoutMs with
      | .error e => .error e
      | .ok () => .ok st
  | .sleep _ => .ok st
  | .print _ => .ok st
  | .dumpPng path =>
    match st.proc with
    | none => .error "Process has not been started"
    | some p =>
      match ops.dumpPng p path with
      | .error e => .error e
      | .ok () => .ok st
  | .dumpTxt path =>
    match st.proc with
    | none => .error "Process has not been started"
    | some p =>
      match ops.dumpTxt p path with
      | .error e => .error e
      | .ok () => .ok st

/-- The commands whose `main_loop` arm begins with `state.proc()?` —
everything except `Start`, `Sleep` and `Print`. -/
def Command.needsProc {κ : Type} : Command κ → Bool
  | .start _ => false
  | .sleep _ => false
  | .print _ => false
  | .sendKeys _ => true
  | .kill => true
  | .wait => true
  | .waitText _ _ => true
  | .dumpPng _ => true
  | .dumpTxt _ => true

/-- A trivial concrete key model (keys are `Unit`) used for closed
evaluations. -/
def unitKeys : KeyFns Unit := ⟨fun _ => .ok (), fun _ => ()⟩

/-- A trivial concrete instantiation (keys and procs are `Unit`, every
abstract operation succeeds) used for closed evaluations. -/
def trivOps : DriverOps Unit Unit where
  start := fun _ => .ok ()
  sendKey := fun _ _ => ()
  kill := fun _ => .ok ()
  wait := fun p => .ok p
  waitText := fun _ _ _ => .ok ()
  dumpPng := fun _ _ => .ok ()
  dumpTxt := fun _ _ => .ok ()

/-! ## `Proc::wait` (`src/proc.rs` lines 218-231)

The `Proc` keeps `wait: Option<oneshot::Receiver<Result<ExitStatus>>>`.
`wait()` takes the receiver (one-shot consumed); `wait.await?` propagates
only a channel receive error; the *inner* `Result` — the child's exit
status or the child's wait error — is merely logged, and `Ok(())` is
returned in all three inner cases. -/

/-- Exit status: `status.success()`. -/
structure ExitSt where
  success : Bool
  deriving DecidableEq

/-- What the one-shot delivers once: either the channel itself fails
(sender dropped — the outer error), or the waiter thread's
`child.wait()` result (the inner `Except`). -/
abbrev WaitChan : Type := Except String (Except String ExitSt)

/-- The fields of `Proc` relevant to `wait`: the pid (untouched by `wait`)
and the one-shot receiver slot. -/
structure ProcWaitSt where
  pid : Int
  wait : Option WaitChan

/-- `Proc::wait`: take the one-shot; `?` on the channel error; log (and
discard) the inner result; a second call bails. Returns the call's result
together with the `Proc` state afterwards. -/
def procWait (p : ProcWaitSt) : Except String Unit × ProcWaitSt :=
  match p.wait with
  | none => (.error "Can't wait the process more than once", p)
  | some ch =>
    match ch with
    | .error e => (.error e, { p with wait := none })
    | .ok _ => (.ok (), { p with wait := none })

/-! ## `Proc::send_key` (`src/proc.rs` lines 182-201)

`encode_key` may fail: that arm only logs a warning and returns.  A
successful encoding is written with `self.master.write_all(..).unwrap()`:
a failing write panics (aborts the process); it is not dropped or
logged. -/

/-- The observable outcome of one `send_key` call. -/
inductive SendKeyOutcome where
  | sent
  | encodeFailedLogged
  | panicked (msg : String)
  deriving DecidableEq

/-- `Proc::send_key` as a function of the encoder's result and the
PTY-master write's result. -/
def sendKeyOutcome (encodeRes : Except String String)
    (writeRes : Except String Unit) : SendKeyOutcome :=
  match encodeRes with
  | .ok _ =>
    match writeRes with
    | .ok () => .sent
    | .error e => .panicked e
  | .error _ => .encodeFailedLogged

/-- Does the call return normally (without aborting the script)? -/
def SendKeyOutcome.returnsNormally : SendKeyOutcome → Bool
  | .sent => true
  | .encodeFailedLogged => true
  | .panicked _ => false

/-! ## Lock discipline of the two `wait_text` polling loops (C2)

A loop iteration is abstracted as the sequence of lock events it
performs on the VT-parser mutex, in program order, with the release
placed where Rust drops the guard.

* `main_loop`'s `Command::WaitText` arm (`src/main.rs` lines 111-117)
  binds the guard with `let vt = vt.lock().await;` in the loop body, so
  the guard is dropped at the end of the loop body — *after* the
  50 ms `tokio::time::sleep`.
* The Lua `wait_text` (`src/proc.rs` lines 439-450) locks inside the
  `if` condition (`proc.lock_vt().unwrap().screen()...`); temporaries of
  an `if` condition are dropped when the condition finishes evaluating,
  so the guard is released *before* the 200 ms sleep. -/

inductive LockEvent where
  | acquire
  | checkContents
  | release
  | sleepMs (ms : Nat)
  deriving DecidableEq

/-- One (non-matching) iteration of the `Command::WaitText` poll loop in
`main_loop`: the guard lives to the end of the loop body. -/
def mainLoopWaitTextIter : List LockEvent :=
  [.acquire, .checkContents, .sleepMs 50, .release]

/-- One (non-matching) iteration of the Lua `wait_text` poll loop: the
guard is a temporary of the `if` condition. -/
def luaWaitTextIter : List LockEvent :=
  [.acquire, .checkContents, .release, .sleepMs 200]

/-- Does the trace ever sleep while the lock is held? -/
def sleepsWhileHeld : List LockEvent → Bool → Bool
  | [], _ => false
  | .acquire :: r, _ => sleepsWhileHeld r true
  | .release :: r, _ => sleepsWhileHeld r false
  | .checkContents :: r, held => sleepsWhileHeld r held
  | .sleepMs _ :: r, held => held || sleepsWhileHeld r held

/-! ## Mouse encoder (`src/mouse.rs`)

`MouseAction::encode` writes `"\x1b[<"`, then the button/drag/scroll code
(bailing on `Moved` before anything else is appended), then
`;column+1;row+1` (`u16` arithmetic, wrapping in release builds), then the
terminator character chosen by a second match on the kind (whose `Moved`
arm is unreachable because the first match already bailed). -/

inductive MouseBtn where
  | left
  | right
  | middle
  deriving DecidableEq

inductive MouseKind where
  | down (b : MouseBtn)
  | up (b : MouseBtn)
  | drag (b : MouseBtn)
  | moved
  | scrollDown
  | scrollUp
  deriving DecidableEq

/-- `crossterm::event::MouseEvent` (modifiers are never read by
`encode`): `column` and `row` are `u16`. -/
structure MouseEv where
  kind : MouseKind
  column : Nat
  row : Nat
  deriving DecidableEq

/-- `MouseAction::encode`.  The two source matches are fused: `Moved`
bails in the first match, every other kind appends its code, the 1-based
coordinates, and the terminator (`'M'` except for `Up`, which gets
`'m'`). -/
def mouseEncode (m : MouseEv) : Except String String :=
  let col := (m.column + 1) % 65536
  let row := (m.row + 1) % 65536
  match m.kind with
  | .moved => .error "Mouse event 'moved' is not supported yet"
  | .down b =>
    .ok ("\x1b[<" ++ (match b with
      | .left => "0" | .right => "1" | .middle => "2") ++
      ";" ++ toString col ++ ";" ++ toString row ++ "M")
  | .up b =>
    .ok ("\x1b[<" ++ (match b with
      | .left => "0" | .right => "1" | .middle => "2") ++
      ";" ++ toString col ++ ";" ++ toString row ++ "m")
  | .drag b =>
    .ok ("\x1b[<" ++ (match b with
      | .left => "32" | .right => "33" | .middle => "34") ++
      ";" ++ toString col ++ ";" ++ toString row ++ "M")
  | .scrollDown =>
    .ok ("\x1b[<" ++ "64" ++ ";" ++ toString col ++ ";" ++ toString row ++ "M")
  | .scrollUp =>
    .ok ("\x1b[<" ++ "65" ++ ";" ++ toString col ++ ";" ++ toString row ++ "M")

/-- The SGR-1006 wire format as the specification words it:
`\x1b[<CODE;COL;ROW` followed by the terminator. -/
def sgrSpecFormat (code : String) (colOneBased rowOneBased : Nat)
    (term : String) : String :=
  "\x1b[<" ++ code ++ ";" ++ toString colOneBased ++ ";" ++
    toString rowOneBased ++ term

/-! ## Glyph rasterization in `dump_png` (`src/dump_png.rs` lines 75-105)

The `outline.draw` closure receives `(dx, dy, coverage)` for every pixel
the rasterizer produces.  Canvas coordinates are computed in `f32`; the
guard keeps a pixel iff `0 ≤ x < canvas.width` and `0 ≤ y < canvas.height`
— the *canvas* bounds, not the bounds of the cell being drawn.  Kept
pixels are alpha-blended over the canvas at the rounded coordinates.
`f32` expressions are modelled exactly over `ℚ`; the font-derived numbers
(`ch_w`, `ch_h`, `px_bounds().min`, `ascent()`) are parameters of the
context since they come from the embedded binary font files. -/

/-- An RGB canvas: `image::RgbImage` with its dimensions and pixel map
(`RgbImage::new` zero-initializes, i.e. black). -/
structure Canvas where
  width : Nat
  height : Nat
  pix : Nat → Nat → Nat × Nat × Nat

/-- `canvas.put_pixel` (functional update). -/
def Canvas.put (cv : Canvas) (x y : Nat) (c : Nat × Nat × Nat) : Canvas :=
  { cv with pix := fun i j => if i = x ∧ j = y then c else cv.pix i j }

/-- The parameters the closure captures: the cell metrics, the cell being
drawn, the glyph's pixel-bounds offsets, the font ascent, and the
foreground color. -/
structure GlyphCtx where
  chW : ℚ
  chH : ℚ
  col : Nat
  row : Nat
  pxMinX : ℚ
  pxMinY : ℚ
  ascent : ℚ
  fg : Nat × Nat × Nat

/-- `x = (col as f32 * ch_w) + dx as f32 + outline.px_bounds().min.x`. -/
def glyphX (g : GlyphCtx) (dx : Nat) : ℚ := g.col * g.chW + dx + g.pxMinX

/-- `y = (row as f32 * ch_h) + dy as f32 + outline.px_bounds().min.y +
font.ascent()`. -/
def glyphY (g : GlyphCtx) (dy : Nat) : ℚ :=
  g.row * g.chH + dy + g.pxMinY + g.ascent

/-- `f32::round` for the in-bounds case (`x ≥ 0`): round half away from
zero, then `as u32`. -/
def roundQ (x : ℚ) : Nat := (Int.floor (x + 1/2)).toNat

/-- Rust `as u8` on an `f32` channel value: truncate toward zero,
saturating into `[0, 255]`. -/
def qToU8 (v : ℚ) : Nat := min 255 (Int.floor v).toNat

/-- `(top * c + bot * (1.0 - c)) as u8`, per channel. -/
def blendChannel (top bot c : ℚ) : Nat := qToU8 (top * c + bot * (1 - c))

/-- The full blended pixel: fg over the existing canvas pixel with
weight `c`. -/
def blendPix (fg old : Nat × Nat × Nat) (c : ℚ) : Nat × Nat × Nat :=
  (blendChannel fg.1 old.1 c,
   blendChannel fg.2.1 old.2.1 c,
   blendChannel fg.2.2 old.2.2 c)

/-- The `outline.draw` closure body for one produced pixel `(dx, dy, c)`:
keep iff inside the canvas, then alpha-blend at the rounded
coordinates. -/
def drawGlyphPixel (g : GlyphCtx) (cv : Canvas) (dx dy : Nat) (c : ℚ) :
    Canvas :=
  let x := glyphX g dx
  let y := glyphY g dy
  if 0 ≤ x ∧ x < (cv.width : ℚ) ∧ 0 ≤ y ∧ y < (cv.height : ℚ) then
    let xi := roundQ x
    let yi := roundQ y
    cv.put xi yi (blendPix g.fg (cv.pix xi yi) c)
  else cv

/-- The `ch_w × ch_h` rectangle of the cell `(row, col)` on the canvas —
the region the specification says glyph pixels are clipped to. -/
def insideCellRect (g : GlyphCtx) (x y : ℚ) : Prop :=
  g.col * g.chW ≤ x ∧ x < (g.col + 1) * g.chW ∧
  g.row * g.chH ≤ y ∧ y < (g.row + 1) * g.chH

/-- A concrete context used for closed evaluations: 26×43 cells, cell
(0,0), zero glyph offsets, default foreground (240,240,240). -/
def glyphCtxEx : GlyphCtx :=
  { chW := 26, chH := 43, col := 0, row := 0,
    pxMinX := 0, pxMinY := 0, ascent := 0, fg := (240, 240, 240) }

/-- A concrete 52×86 canvas (2×2 cells), zero-initialized like
`RgbImage::new`. -/
def canvasEx : Canvas :=
  { width := 52, height := 86, pix := fun _ _ => (0, 0, 0) }

/-! ## Theorems -/

/-! ### Length lemmas (used only for termination of the token loops) -/

theorem skipSpaces_length_le (l : List Char) :
    (skipSpaces l).length ≤ l.length := by
  induction l with
  | nil => simp [skipSpaces]
  | cons c rest ih =>
    simp only [skipSpaces]
    by_cases h : rustIsWhitespace c
    · simp only [h, if_true]; exact Nat.le_succ_of_le ih
    · simp [h]

theorem takeStringLoop_length_lt (l : List Char) (buf : String) :
    ∀ s rest, takeStringLoop l buf = .ok (s, rest) → rest.length < l.length := by
  induction l, buf using takeStringLoop.induct with
  | case1 buf => intro s r h; unfold takeStringLoop at h; simp at h
  | case2 rest buf =>
      intro s r h
      unfold takeStringLoop at h
      simp at h
      obtain ⟨-, h2⟩ := h
      subst h2
      simp only [List.length_cons]
      omega
  | case3 rest buf h1 => intro s r h; unfold takeStringLoop at h; simp at h
  | case4 buf h1 h2 => intro s r h; unfold takeStringLoop at h; simp at h
  | case5 buf tail h1 h2 ih =>
      intro s r h
      unfold takeStringLoop at h
      simp at h
      have := ih s r h
      simp only [List.length_cons]; omega
  | case6 buf tail h1 h2 h3 ih =>
      intro s r h
      unfold takeStringLoop at h
      simp at h
      have := ih s r h
      simp only [List.length_cons]; omega
  | case7 buf tail h1 h2 h3 h4 ih =>
      intro s r h
      unfold takeStringLoop at h
      simp at h
      have := ih s r h
      simp only [List.length_cons]; omega
  | case8 buf tail h1 h2 h3 h4 h5 ih =>
      intro s r h
      unfold takeStringLoop at h
      simp at h
      have := ih s r h
      simp only [List.length_cons]; omega
  | case9 buf c tail h1 h2 h3 h4 h5 h6 =>
      intro s r h
      unfold takeStringLoop at h
      simp [h1, h2, h3, h4] at h
  | case10 c rest buf h1 h2 h3 ih =>
      intro s r h
      unfold takeStringLoop at h
      simp [h1, h2, h3] at h
      have := ih s r h
      simp only [List.length_cons]; omega

theorem takeString_length_lt (l : List Char) (s : String) (rest : List Char)
    (h : takeString l = .ok (s, rest)) : rest.length < l.length := by
  match l with
  | [] => unfold takeString at h; simp at h
  | c :: tl =>
    unfold takeString at h
    by_cases hc : c = '"'
    · subst hc
      simp at h
      exact Nat.lt_succ_of_lt (takeStringLoop_length_lt tl "" s rest h)
    · simp [hc] at h

theorem takeIdentLoop_length_le (l : List Char) (buf : String) :
    (takeIdentLoop l buf).2.length ≤ l.length := by
  induction l generalizing buf with
  | nil => simp [takeIdentLoop]
  | cons c rest ih =>
    simp only [takeIdentLoop]
    by_cases h : c.isAlphanum || c = '_'
    · simp only [h, if_true]
      exact Nat.le_succ_of_le (ih (buf.push c))
    · simp [h]

theorem takeIdentLoop_peek_lt (l : List Char)
    (h : (peekChar l).isAlphanum || peekChar l = '_') :
    ∀ buf, (takeIdentLoop l buf).2.length < l.length := by
  intro buf
  cases l with
  | nil =>
    simp only [peekChar] at h
    exact absurd h (by decide)
  | cons c tl =>
    simp only [peekChar] at h
    simp only [takeIdentLoop, h, if_true]
    exact Nat.lt_succ_of_le (takeIdentLoop_length_le tl (buf.push c))

theorem takeNumber_length_le (l : List Char) (acc : Nat) :
    (takeNumber l acc).2.length ≤ l.length := by
  induction l generalizing acc with
  | nil => simp [takeNumber]
  | cons c rest ih =>
    simp only [takeNumber]
    by_cases h : c.isDigit
    · simp only [h, if_true]
      exact Nat.le_succ_of_le (ih _)
    · simp [h]

theorem takeNumber_peek_lt (l : List Char) (h : (peekChar l).isDigit) :
    ∀ acc, (takeNumber l acc).2.length < l.length := by
  intro acc
  cases l with
  | nil =>
    simp only [peekChar] at h
    exact absurd h (by decide)
  | cons c tl =>
    simp only [peekChar] at h
    simp only [takeNumber, h, if_true]
    exact Nat.lt_succ_of_le (takeNumber_length_le tl _)

theorem takeKeyLoop_length_lt (l : List Char) (buf : String) :
    ∀ s rest, takeKeyLoop l buf = .ok (s, rest) → rest.length < l.length := by
  induction l generalizing buf with
  | nil => intro s r h; simp [takeKeyLoop] at h
  | cons c tl ih =>
    intro s r h
    simp only [takeKeyLoop] at h
    by_cases hc : c = '>'
    · simp [hc] at h
      obtain ⟨-, h2⟩ := h
      subst h2
      simp only [List.length_cons]
      omega
    · simp only [hc, if_false] at h
      by_cases h0 : c = '\x00'
      · simp [h0] at h
      · simp only [h0, if_false] at h
        exact Nat.lt_succ_of_lt (ih (buf.push c) s r h)

theorem takeKey_length_lt {κ : Type} (ks : KeyFns κ) (l : List Char)
    (k : κ) (rest : List Char) (h : takeKey ks l = .ok (k, rest)) :
    rest.length < l.length := by
  unfold takeKey at h
  split at h
  · simp at h
  · rename_i p buf r heq
    split at h
    · simp at h
    · simp only [Except.ok.injEq, Prod.mk.injEq] at h
      obtain ⟨-, h2⟩ := h
      subst h2
      exact takeKeyLoop_length_lt l "" buf _ heq

theorem nextToken_length {κ : Type} (ks : KeyFns κ) (l : List Char)
    (tok : Token κ) (rest : List Char) (h : nextToken ks l = .ok (tok, rest)) :
    rest.length ≤ l.length ∧ (tok ≠ .eof → rest.length < l.length) := by
  have hskip := skipSpaces_length_le l
  simp only [nextToken] at h
  revert h hskip
  generalize skipSpaces l = sk
  intro hskip h
  split at h
  · -- string branch
    rename_i h1
    split at h
    · simp at h
    · rename_i p s r heq
      simp only [Except.ok.injEq, Prod.mk.injEq] at h
      obtain ⟨-, h2⟩ := h
      subst h2
      have := takeString_length_lt sk s _ heq
      exact ⟨by omega, fun _ => by omega⟩
  · rename_i h1
    split at h
    · -- identifier branch
      rename_i h2
      have hlt := takeIdentLoop_peek_lt sk (by simp [Char.isAlphanum, h2]) ""
      split at h
      · simp only [Except.ok.injEq, Prod.mk.injEq] at h
        obtain ⟨-, h3⟩ := h
        subst h3
        have htail := List.length_tail (takeIdentLoop sk "").2
        exact ⟨by omega, fun _ => by omega⟩
      · simp only [Except.ok.injEq, Prod.mk.injEq] at h
        obtain ⟨-, h3⟩ := h
        subst h3
        exact ⟨by omega, fun _ => by omega⟩
    · rename_i h2
      split at h
      · -- key branch
        rename_i h3
        split at h
        · simp at h
        · rename_i p k r heq
          simp only [Except.ok.injEq, Prod.mk.injEq] at h
          obtain ⟨-, h4⟩ := h
          subst h4
          have := takeKey_length_lt ks sk k _ heq
          exact ⟨by omega, fun _ => by omega⟩
      · rename_i h3
        split at h
        · -- number branch
          rename_i h4
          have hdl := takeNumber_peek_lt sk h4 0
          split at h
          · -- suffixed duration
            rename_i h5
            have hsfx := takeIdentLoop_length_le (takeNumber sk 0).2 ""
            split at h
            · simp only [Except.ok.injEq, Prod.mk.injEq] at h
              obtain ⟨-, h6⟩ := h
              subst h6
              exact ⟨by omega, fun _ => by omega⟩
            · split at h
              · simp only [Except.ok.injEq, Prod.mk.injEq] at h
                obtain ⟨-, h6⟩ := h
                subst h6
                exact ⟨by omega, fun _ => by omega⟩
              · simp at h
          · simp only [Except.ok.injEq, Prod.mk.injEq] at h
            obtain ⟨-, h6⟩ := h
            subst h6
            exact ⟨by omega, fun _ => by omega⟩
        · rename_i h4
          split at h
          · -- '#' comment: Eof without consuming
            simp only [Except.ok.injEq, Prod.mk.injEq] at h
            obtain ⟨h5, h6⟩ := h
            subst h6
            exact ⟨hskip, fun hc => absurd h5.symm hc⟩
          · split at h
            · simp only [Except.ok.injEq, Prod.mk.injEq] at h
              obtain ⟨h5, h6⟩ := h
              subst h6
              exact ⟨hskip, fun hc => absurd h5.symm hc⟩
            · simp at h

theorem lineTokensF_cons {κ : Type} (ks : KeyFns κ) (f : Nat)
    (input : List Char) (ts : List (Token κ)) (tok : Token κ)
    (rest : List Char) (hlt : lineTokensF ks (f + 1) input = .ok ts)
    (hnt : nextToken ks input = .ok (tok, rest)) (hne : tok ≠ .eof) :
    ∃ ts2, ts = tok :: ts2 ∧ lineTokensF ks f rest = .ok ts2 := by
  simp only [lineTokensF] at hlt
  rw [hnt] at hlt
  cases tok with
  | eof => exact absurd rfl hne
  | ident s =>
    simp only [] at hlt
    cases hrec : lineTokensF ks f rest with
    | error e => rw [hrec] at hlt; simp [Except.map] at hlt
    | ok ts2 => rw [hrec] at hlt; simp [Except.map] at hlt; exact ⟨ts2, hlt.symm, rfl⟩
  | str s =>
    simp only [] at hlt
    cases hrec : lineTokensF ks f rest with
    | error e => rw [hrec] at hlt; simp [Except.map] at hlt
    | ok ts2 => rw [hrec] at hlt; simp [Except.map] at hlt; exact ⟨ts2, hlt.symm, rfl⟩
  | arg s =>
    simp only [] at hlt
    cases hrec : lineTokensF ks f rest with
    | error e => rw [hrec] at hlt; simp [Except.map] at hlt
    | ok ts2 => rw [hrec] at hlt; simp [Except.map] at hlt; exact ⟨ts2, hlt.symm, rfl⟩
  | int n =>
    simp only [] at hlt
    cases hrec : lineTokensF ks f rest with
    | error e => rw [hrec] at hlt; simp [Except.map] at hlt
    | ok ts2 => rw [hrec] at hlt; simp [Except.map] at hlt; exact ⟨ts2, hlt.symm, rfl⟩
  | dur d =>
    simp only [] at hlt
    cases hrec : lineTokensF ks f rest with
    | error e => rw [hrec] at hlt; simp [Except.map] at hlt
    | ok ts2 => rw [hrec] at hlt; simp [Except.map] at hlt; exact ⟨ts2, hlt.symm, rfl⟩
  | key k =>
    simp only [] at hlt
    cases hrec : lineTokensF ks f rest with
    | error e => rw [hrec] at hlt; simp [Except.map] at hlt
    | ok ts2 => rw [hrec] at hlt; simp [Except.map] at hlt; exact ⟨ts2, hlt.symm, rfl⟩

theorem lineTokensF_eof {κ : Type} (ks : KeyFns κ) (f : Nat)
    (input : List Char) (ts : List (Token κ)) (rest : List Char)
    (hlt : lineTokensF ks (f + 1) input = .ok ts)
    (hnt : nextToken ks input = .ok (.eof, rest)) : ts = [] := by
  simp only [lineTokensF] at hlt
  rw [hnt] at hlt
  simpa using hlt.symm

theorem waitTextLoopF_ok_char {κ : Type} (ks : KeyFns κ) :
    ∀ (f1 : Nat), ∀ (input : List Char) (f2 : Nat) (text : Option String)
      (tmo : Nat) (ts : List (Token κ)) (t : String) (res : Nat),
      input.length < f1 → input.length < f2 →
      lineTokensF ks f2 input = .ok ts →
      waitTextLoopF ks f1 input text tmo = .ok (.waitText t res) →
      ((text = none → strTokens ts = [t]) ∧
       (∀ t0, text = some t0 → strTokens ts = [] ∧ t = t0) ∧
       (hasTimeoutArg ts = false → res = tmo)) := by
  intro f1
  induction f1 with
  | zero => intro input f2 text tmo ts t res h1 h2 hlt hw; omega
  | succ a ih =>
    intro input f2 text tmo ts t res h1 h2 hlt hw
    obtain ⟨b, rfl⟩ : ∃ b, f2 = b + 1 := ⟨f2 - 1, by omega⟩
    simp only [waitTextLoopF] at hw
    cases hnt : nextToken ks input with
    | error e => rw [hnt] at hw; simp at hw
    | ok p =>
      obtain ⟨tok, rest⟩ := p
      rw [hnt] at hw
      have hrl : rest.length ≤ input.length := (nextToken_length ks input _ _ hnt).1
      cases tok with
      | str s =>
        simp only [] at hw
        have hrlt : rest.length < input.length :=
          (nextToken_length ks input _ _ hnt).2 (by intro hc; cases hc)
        obtain ⟨ts2, rfl, hlt2⟩ := lineTokensF_cons ks b input ts (.str s) rest hlt hnt (by intro hc; cases hc)
        cases text with
        | some t0 => simp at hw
        | none =>
          simp only [] at hw
          have := ih rest b (some s) tmo ts2 t res (by omega) (by omega) hlt2 hw
          obtain ⟨-, hsome, htmo⟩ := this
          obtain ⟨hts2, hts⟩ := hsome s rfl
          refine ⟨fun _ => ?_, fun t0 hc => Option.noConfusion hc, fun hnoarg => ?_⟩
          · simp [strTokens, hts2, hts]
          · exact htmo (by simpa [hasTimeoutArg] using hnoarg)
      | arg a2 =>
        simp only [] at hw
        by_cases ha : a2 = "timeout"
        · subst ha
          rw [if_pos rfl] at hw
          cases hnt2 : nextToken ks rest with
          | error e => rw [hnt2] at hw; simp at hw
          | ok p2 =>
            obtain ⟨tok2, rest2⟩ := p2
            rw [hnt2] at hw
            cases tok2 with
            | dur t2 =>
              simp only [] at hw
              have hr2 : rest2.length < rest.length :=
                (nextToken_length ks rest _ _ hnt2).2 (by intro hc; cases hc)
              have hrlt : rest.length < input.length :=
                (nextToken_length ks input _ _ hnt).2 (by intro hc; cases hc)
              obtain ⟨ts2, rfl, hlt2⟩ := lineTokensF_cons ks b input ts (.arg "timeout") rest hlt hnt (by intro hc; cases hc)
              obtain ⟨c, rfl⟩ : ∃ c, b = c + 1 := ⟨b - 1, by omega⟩
              obtain ⟨ts3, rfl, hlt3⟩ := lineTokensF_cons ks c rest ts2 (.dur t2) rest2 hlt2 hnt2 (by intro hc; cases hc)
              have := ih rest2 c text t2 ts3 t res (by omega) (by omega) hlt3 hw
              obtain ⟨hnone, hsome, -⟩ := this
              refine ⟨fun he => ?_, fun t0 he => ?_, fun hnoarg => ?_⟩
              · simpa [strTokens] using hnone he
              · simpa [strTokens] using hsome t0 he
              · exact absurd hnoarg (by simp [hasTimeoutArg])
            | ident s2 => simp at hw
            | str s2 => simp at hw
            | arg s2 => simp at hw
            | int n2 => simp at hw
            | key k2 => simp at hw
            | eof => simp at hw
        · rw [if_neg ha] at hw
          simp at hw
      | eof =>
        simp only [] at hw
        have hts : ts = [] := lineTokensF_eof ks b input ts rest hlt hnt
        subst hts
        cases text with
        | some t0 =>
          simp only [Except.ok.injEq, Command.waitText.injEq] at hw
          obtain ⟨h3, h4⟩ := hw
          refine ⟨fun hc => Option.noConfusion hc, fun t1 he => ?_, fun _ => h4.symm⟩
          injection he with he2
          subst he2
          exact ⟨rfl, h3.symm⟩
        | none => simp at hw
      | ident s2 => simp at hw
      | int n2 => simp at hw
      | dur d2 => simp at hw
      | key k2 => simp at hw

theorem waitTextLoopF_err_char {κ : Type} (ks : KeyFns κ) :
    ∀ (f1 : Nat), ∀ (input : List Char) (f2 : Nat) (text : Option String)
      (tmo : Nat) (ts : List (Token κ)),
      input.length < f1 → input.length < f2 →
      lineTokensF ks f2 input = .ok ts →
      ((text = none ∧ (strTokens ts = [] ∨ 2 ≤ (strTokens ts).length)) ∨
       (∃ t0, text = some t0 ∧ strTokens ts ≠ [])) →
      ∃ e, waitTextLoopF ks f1 input text tmo = .error e := by
  intro f1
  induction f1 with
  | zero => intro input f2 text tmo ts h1 h2 hlt hcond; omega
  | succ a ih =>
    intro input f2 text tmo ts h1 h2 hlt hcond
    obtain ⟨b, rfl⟩ : ∃ b, f2 = b + 1 := ⟨f2 - 1, by omega⟩
    simp only [waitTextLoopF]
    cases hnt : nextToken ks input with
    | error e => exact ⟨e, rfl⟩
    | ok p =>
      obtain ⟨tok, rest⟩ := p
      have hrl : rest.length ≤ input.length := (nextToken_length ks input _ _ hnt).1
      cases tok with
      | str s =>
        have hrlt : rest.length < input.length :=
          (nextToken_length ks input _ _ hnt).2 (by intro hc; cases hc)
        obtain ⟨ts2, rfl, hlt2⟩ := lineTokensF_cons ks b input ts (.str s) rest hlt hnt (by intro hc; cases hc)
        cases text with
        | some t0 => exact ⟨_, rfl⟩
        | none =>
          simp only []
          rcases hcond with ⟨-, hz | h2s⟩ | ⟨t0, hne, -⟩
          · simp [strTokens] at hz
          · have hne2 : strTokens ts2 ≠ [] := by
              simp only [strTokens, List.length_cons] at h2s ⊢
              intro hc
              rw [hc] at h2s
              simp at h2s
            exact ih rest b (some s) tmo ts2 (by omega) (by omega) hlt2
              (Or.inr ⟨s, rfl, hne2⟩)
          · exact Option.noConfusion hne
      | arg a2 =>
        simp only []
        by_cases ha : a2 = "timeout"
        · subst ha
          rw [if_pos rfl]
          cases hnt2 : nextToken ks rest with
          | error e => exact ⟨e, rfl⟩
          | ok p2 =>
            obtain ⟨tok2, rest2⟩ := p2
            cases tok2 with
            | dur t2 =>
              simp only []
              have hr2 : rest2.length < rest.length :=
                (nextToken_length ks rest _ _ hnt2).2 (by intro hc; cases hc)
              have hrlt : rest.length < input.length :=
                (nextToken_length ks input _ _ hnt).2 (by intro hc; cases hc)
              obtain ⟨ts2, rfl, hlt2⟩ := lineTokensF_cons ks b input ts (.arg "timeout") rest hlt hnt (by intro hc; cases hc)
              obtain ⟨c, rfl⟩ : ∃ c, b = c + 1 := ⟨b - 1, by omega⟩
              obtain ⟨ts3, rfl, hlt3⟩ := lineTokensF_cons ks c rest ts2 (.dur t2) rest2 hlt2 hnt2 (by intro hc; cases hc)
              refine ih rest2 c text t2 ts3 (by omega) (by omega) hlt3 ?_
              rcases hcond with ⟨he, hor⟩ | ⟨t0, he, hne⟩
              · exact Or.inl ⟨he, by simpa [strTokens] using hor⟩
              · exact Or.inr ⟨t0, he, by simpa [strTokens] using hne⟩
            | ident s2 => exact ⟨_, rfl⟩
            | str s2 => exact ⟨_, rfl⟩
            | arg s2 => exact ⟨_, rfl⟩
            | int n2 => exact ⟨_, rfl⟩
            | key k2 => exact ⟨_, rfl⟩
            | eof => exact ⟨_, rfl⟩
        · rw [if_neg ha]
          exact ⟨_, rfl⟩
      | eof =>
        have hts : ts = [] := lineTokensF_eof ks b input ts rest hlt hnt
        subst hts
        rcases hcond with ⟨he, -⟩ | ⟨t0, he, hne⟩
        · subst he; exact ⟨_, rfl⟩
        · simp [strTokens] at hne
      | ident s2 => exact ⟨_, rfl⟩
      | int n2 => exact ⟨_, rfl⟩
      | dur d2 => exact ⟨_, rfl⟩
      | key k2 => exact ⟨_, rfl⟩

theorem waitTextLoopF_ok_shape {κ : Type} (ks : KeyFns κ) :
    ∀ (f1 : Nat), ∀ (input : List Char) (text : Option String) (tmo : Nat)
      (c : Command κ), waitTextLoopF ks f1 input text tmo = .ok c →
      ∃ t res, c = .waitText t res := by
  intro f1
  induction f1 with
  | zero => intro input text tmo c hw; simp [waitTextLoopF] at hw
  | succ a ih =>
    intro input text tmo c hw
    simp only [waitTextLoopF] at hw
    cases hnt : nextToken ks input with
    | error e => rw [hnt] at hw; simp at hw
    | ok p =>
      obtain ⟨tok, rest⟩ := p
      rw [hnt] at hw
      cases tok with
      | str s =>
        simp only [] at hw
        cases text with
        | some t0 => simp at hw
        | none => exact ih rest (some s) tmo c hw
      | arg a2 =>
        simp only [] at hw
        by_cases ha : a2 = "timeout"
        · subst ha
          rw [if_pos rfl] at hw
          cases hnt2 : nextToken ks rest with
          | error e => rw [hnt2] at hw; simp at hw
          | ok p2 =>
            obtain ⟨tok2, rest2⟩ := p2
            rw [hnt2] at hw
            cases tok2 with
            | dur t2 => exact ih rest2 text t2 c hw
            | ident s2 => simp at hw
            | str s2 => simp at hw
            | arg s2 => simp at hw
            | int n2 => simp at hw
            | key k2 => simp at hw
            | eof => simp at hw
        · rw [if_neg ha] at hw; simp at hw
      | eof =>
        simp only [] at hw
        cases text with
        | some t0 =>
          simp only [Except.ok.injEq] at hw
          exact ⟨t0, tmo, hw.symm⟩
        | none => simp at hw
      | ident s2 => simp at hw
      | int n2 => simp at hw
      | dur d2 => simp at hw
      | key k2 => simp at hw

theorem takeIdentLoop_stop (l : List Char) (buf : String)
    (h : ((peekChar l).isAlphanum || peekChar l = '_') = false) :
    takeIdentLoop l buf = (buf, l) := by
  cases l with
  | nil => rfl
  | cons c tl =>
    simp only [peekChar] at h
    simp [takeIdentLoop, h]

theorem nextToken_waitTextChars {κ : Type} (ks : KeyFns κ) (rest : List Char)
    (h : ((peekChar rest).isAlphanum || peekChar rest = '_') = false)
    (h2 : peekChar rest ≠ ':') :
    nextToken ks (waitTextChars ++ rest) = .ok (.ident "wait_text", rest) := by
  simp only [waitTextChars, List.cons_append, List.nil_append]
  simp only [nextToken, skipSpaces, rustIsWhitespace, peekChar, takeIdentLoop]
  norm_num
  rw [takeIdentLoop_stop rest _ h]
  simp only [peekChar] at h2 ⊢
  simp [h2]
  rfl

theorem parseCmd_waitTextLine {κ : Type} (ks : KeyFns κ) (rest : List Char)
    (h : ((peekChar rest).isAlphanum || peekChar rest = '_') = false)
    (h2 : peekChar rest ≠ ':') :
    parseCmd ks (waitTextChars ++ rest) =
      (waitTextLoop ks rest none 1000).map some := by
  unfold parseCmd
  rw [nextToken_waitTextChars ks rest h h2]
  simp

/-! ## Claim theorems -/

/-- C1 (counterexample): with an empty Proc slot, the `Print` command —
which is not a `start` — succeeds instead of failing with "Process has
not been started", so the claim as stated is false. -/
theorem C1_empty_slot_counterexample :
    execCommand trivOps ⟨none⟩ (Command.print "ok") = .ok ⟨none⟩ ∧
    execCommand trivOps ⟨none⟩ (Command.print "ok") ≠
      .error "Process has not been started" := by
  constructor
  · rfl
  · intro h
    exact Except.noConfusion h

/-- C1 (amended): with an empty slot, every command whose `main_loop` arm
begins with `state.proc()?` — `send_keys`, `kill`, `wait`, `wait_text`,
`dump_png`, `dump_txt` — fails with "Process has not been started", while
`sleep` and `print` succeed without a process; `start` with an installed
Proc fails with "Process was already started".  Holds for every abstract
operation set `ops`. -/
theorem C1_slot_guards {κ π : Type} (ops : DriverOps κ π)
    (st : DriverState π) (cmd : Command κ) :
    (st.proc = none → cmd.needsProc = true →
      execCommand ops st cmd = .error "Process has not been started") ∧
    (∀ p args, st.proc = some p →
      execCommand ops st (.start args) = .error "Process was already started") ∧
    (∀ msg, execCommand ops ⟨none⟩ (.print msg) = .ok ⟨none⟩) ∧
    (∀ ms, execCommand ops ⟨none⟩ (.sleep ms) = .ok ⟨none⟩) := by
  refine ⟨?_, ?_, ?_, ?_⟩
  · intro hnone hneeds
    cases cmd <;> simp_all [execCommand, Command.needsProc]
  · intro p args hsome
    simp [execCommand, hsome]
  · intro msg; rfl
  · intro ms; rfl

/-- C1 witness: the guards evaluated at concrete inputs. -/
theorem C1_slot_guards_witness :
    execCommand trivOps ⟨none⟩ (Command.kill (κ := Unit)) =
      .error "Process has not been started" ∧
    execCommand trivOps ⟨some ()⟩ (Command.start (κ := Unit) ["sh"]) =
      .error "Process was already started" :=
  ⟨(C1_slot_guards trivOps ⟨none⟩ .kill).1 rfl rfl,
   (C1_slot_guards trivOps ⟨some ()⟩ (.start ["sh"])).2.1 () ["sh"] rfl⟩

/-- C2: evaluating the lock-event traces of the two `wait_text` polling
loops at a non-matching iteration: the `main_loop` `Command::WaitText` arm
sleeps its 50 ms while the VT mutex is held (the guard is dropped at the
end of the loop body), while the Lua `wait_text` releases before its
200 ms sleep as the claim requires. -/
theorem C2_lock_across_sleep_eval :
    sleepsWhileHeld mainLoopWaitTextIter false = true ∧
    sleepsWhileHeld luaWaitTextIter false = false := by
  decide

/-- C3 (counterexample): a successfully encoded key whose PTY write fails
makes `send_key` panic (the `.unwrap()` on `write_all`), so the call does
not return normally — the claim as stated is false. -/
theorem C3_write_failure_counterexample :
    sendKeyOutcome (.ok "a") (.error "EIO") = .panicked "EIO" ∧
    (sendKeyOutcome (.ok "a") (.error "EIO")).returnsNormally = false := by
  decide

/-- C3 (amended): only *encoding* failures are tolerated (logged, key
skipped, normal return); if encoding succeeds and the write fails,
`send_key` panics with the write error — the failure is fatal, not
dropped or logged. -/
theorem C3_send_key_outcomes (enc : Except String String)
    (w : Except String Unit) :
    (∀ bytes e, enc = .ok bytes → w = .error e →
      sendKeyOutcome enc w = .panicked e) ∧
    (∀ e, enc = .error e →
      (sendKeyOutcome enc w).returnsNormally = true) ∧
    (∀ bytes, enc = .ok bytes → w = .ok () → sendKeyOutcome enc w = .sent) := by
  refine ⟨?_, ?_, ?_⟩
  · intro bytes e henc hw
    subst henc; subst hw; rfl
  · intro e henc
    subst henc; rfl
  · intro bytes henc hw
    subst henc; subst hw; rfl

/-- C3 witness. -/
theorem C3_send_key_outcomes_witness :
    sendKeyOutcome (.ok "a") (.error "broken pipe") = .panicked "broken pipe" :=
  (C3_send_key_outcomes (.ok "a") (.error "broken pipe")).1 "a" "broken pipe" rfl rfl

/-- C4 (counterexample): when the one-shot delivers the child's wait
*error*, `Proc::wait` logs it and still returns `Ok(())` — it does not
return the child's wait error, so the claim as stated is false. -/
theorem C4_wait_error_counterexample :
    (procWait ⟨7, some (Except.ok (Except.error "waitpid failed"))⟩).1 =
      .ok () ∧
    (procWait ⟨7, some (Except.ok (Except.error "waitpid failed"))⟩).1 ≠
      .error "waitpid failed" := by
  constructor
  · rfl
  · intro h
    exact Except.noConfusion h

/-- C4 (amended): the first call consumes the one-shot (the `wait` slot
becomes `None`, nothing else changes) and returns success whether the
child exited successfully, exited unsuccessfully, or the child's wait
itself errored (the inner result is only logged); an error is returned
only when the channel receive fails (sender dropped), and then it is the
receive error. -/
theorem C4_first_wait (p : ProcWaitSt) (ch : WaitChan)
    (h : p.wait = some ch) :
    (procWait p).2.wait = none ∧
    (procWait p).2.pid = p.pid ∧
    ((procWait p).1 = .ok () ↔ ∃ r, ch = .ok r) ∧
    (∀ e, ch = .error e → (procWait p).1 = .error e) := by
  cases ch with
  | error e => simp [procWait, h]
  | ok r => simp [procWait, h]

/-- C4 witness: a consumed channel carrying a failed child wait. -/
theorem C4_first_wait_witness :
    (procWait ⟨7, some (Except.ok (Except.error "waitpid failed"))⟩).2.wait =
      none ∧
    (procWait ⟨7, some (Except.ok (Except.error "waitpid failed"))⟩).2.pid = 7 ∧
    ((procWait ⟨7, some (Except.ok (Except.error "waitpid failed"))⟩).1 =
        .ok () ↔
      ∃ r, (Except.ok (Except.error "waitpid failed") : WaitChan) = .ok r) ∧
    (∀ e, (Except.ok (Except.error "waitpid failed") : WaitChan) = .error e →
      (procWait ⟨7, some (Except.ok (Except.error "waitpid failed"))⟩).1 =
        .error e) :=
  C4_first_wait ⟨7, some (Except.ok (Except.error "waitpid failed"))⟩
    (Except.ok (Except.error "waitpid failed")) rfl

/-- C5: once the one-shot has been taken (`wait` slot `None`), a second
`Proc::wait` bails with "Can't wait the process more than once" — an
error stating the process cannot be waited more than once — and returns
the `Proc` state unchanged. -/
theorem C5_second_wait (p : ProcWaitSt) (h : p.wait = none) :
    procWait p = (.error "Can't wait the process more than once", p) := by
  simp [procWait, h]

/-- C5 witness. -/
theorem C5_second_wait_witness :
    procWait ⟨9, none⟩ =
      (.error "Can't wait the process more than once", ⟨9, none⟩) :=
  C5_second_wait ⟨9, none⟩ rfl

/-- C6: parsing a `wait_text` line (the `wait_text` identifier followed by
a rest that does not extend the identifier) runs the `wait_text` arm; a
successful parse always yields a `WaitText` command whose text is the
single string token of the line and whose timeout is 1 second (1000 ms)
when no `timeout:` argument is given; a line whose token stream holds
zero or at least two string tokens is a parse error. -/
theorem C6_wait_text_parse {κ : Type} (ks : KeyFns κ) (rest : List Char)
    (ts : List (Token κ))
    (hpk : ((peekChar rest).isAlphanum || peekChar rest = '_') = false)
    (hcol : peekChar rest ≠ ':')
    (hlt : lineTokens ks rest = .ok ts) :
    (parseCmd ks (waitTextChars ++ rest) =
      (waitTextLoop ks rest none 1000).map some) ∧
    (∀ c, waitTextLoop ks rest none 1000 = .ok c →
      ∃ t res, c = .waitText t res) ∧
    (∀ t res, waitTextLoop ks rest none 1000 = .ok (.waitText t res) →
      strTokens ts = [t] ∧ (hasTimeoutArg ts = false → res = 1000)) ∧
    ((strTokens ts = [] ∨ 2 ≤ (strTokens ts).length) →
      ∃ e, waitTextLoop ks rest none 1000 = .error e) := by
  refine ⟨parseCmd_waitTextLine ks rest hpk hcol, ?_, ?_, ?_⟩
  · intro c hw
    exact waitTextLoopF_ok_shape ks (rest.length + 1) rest none 1000 c hw
  · intro t res hw
    have := waitTextLoopF_ok_char ks (rest.length + 1) rest
      (rest.length + 1) none 1000 ts t res (by omega) (by omega) hlt hw
    obtain ⟨hnone, -, htmo⟩ := this
    exact ⟨hnone rfl, htmo⟩
  · intro hor
    exact waitTextLoopF_err_char ks (rest.length + 1) rest
      (rest.length + 1) none 1000 ts (by omega) (by omega) hlt
      (Or.inl ⟨rfl, hor⟩)

/-- C6 witness: the line `wait_text "a"`. -/
theorem C6_wait_text_parse_witness :
    (parseCmd unitKeys (waitTextChars ++ [' ', '"', 'a', '"']) =
      (waitTextLoop unitKeys [' ', '"', 'a', '"'] none 1000).map some) ∧
    strTokens [Token.str (κ := Unit) "a"] = ["a"] ∧
    (hasTimeoutArg [Token.str (κ := Unit) "a"] = false → 1000 = 1000) := by
  refine ⟨(C6_wait_text_parse unitKeys [' ', '"', 'a', '"'] [Token.str "a"]
    (by decide) (by decide) (by decide)).1, ?_⟩
  exact (C6_wait_text_parse unitKeys [' ', '"', 'a', '"'] [Token.str "a"]
    (by decide) (by decide) (by decide)).2.2.1 "a" 1000 (by decide)

/-- C7: for every mouse event with non-wrapping `u16` coordinates,
`encode` produces the SGR-1006 string `\x1b[<CODE;COL;ROW` terminated by
`M` (press/drag/scroll) or `m` (release), with codes 0/1/2 for
left/right/middle press and release, 32/33/34 for drags, 65 for
ScrollUp, 64 for ScrollDown, 1-based coordinates, and an error for
`Moved`. -/
theorem C7_sgr_encoding (col row : Nat) (hc : col < 65535)
    (hr : row < 65535) :
    mouseEncode ⟨.down .left, col, row⟩ =
      .ok (sgrSpecFormat "0" (col + 1) (row + 1) "M") ∧
    mouseEncode ⟨.down .right, col, row⟩ =
      .ok (sgrSpecFormat "1" (col + 1) (row + 1) "M") ∧
    mouseEncode ⟨.down .middle, col, row⟩ =
      .ok (sgrSpecFormat "2" (col + 1) (row + 1) "M") ∧
    mouseEncode ⟨.up .left, col, row⟩ =
      .ok (sgrSpecFormat "0" (col + 1) (row + 1) "m") ∧
    mouseEncode ⟨.up .right, col, row⟩ =
      .ok (sgrSpecFormat "1" (col + 1) (row + 1) "m") ∧
    mouseEncode ⟨.up .middle, col, row⟩ =
      .ok (sgrSpecFormat "2" (col + 1) (row + 1) "m") ∧
    mouseEncode ⟨.drag .left, col, row⟩ =
      .ok (sgrSpecFormat "32" (col + 1) (row + 1) "M") ∧
    mouseEncode ⟨.drag .right, col, row⟩ =
      .ok (sgrSpecFormat "33" (col + 1) (row + 1) "M") ∧
    mouseEncode ⟨.drag .middle, col, row⟩ =
      .ok (sgrSpecFormat "34" (col + 1) (row + 1) "M") ∧
    mouseEncode ⟨.scrollUp, col, row⟩ =
      .ok (sgrSpecFormat "65" (col + 1) (row + 1) "M") ∧
    mouseEncode ⟨.scrollDown, col, row⟩ =
      .ok (sgrSpecFormat "64" (col + 1) (row + 1) "M") ∧
    mouseEncode ⟨.moved, col, row⟩ =
      .error "Mouse event 'moved' is not supported yet" := by
  have hcm : (col + 1) % 65536 = col + 1 := Nat.mod_eq_of_lt (by omega)
  have hrm : (row + 1) % 65536 = row + 1 := Nat.mod_eq_of_lt (by omega)
  simp [mouseEncode, sgrSpecFormat, hcm, hrm]

/-- C7 witness. -/
theorem C7_sgr_encoding_witness :
    mouseEncode ⟨.down .left, 4, 2⟩ = .ok (sgrSpecFormat "0" 5 3 "M") :=
  (C7_sgr_encoding 4 2 (by decide) (by decide)).1

/-- C9 (counterexample): glyph pixels are *not* clipped to the cell's
`ch_w × ch_h` rectangle — a pixel landing outside the cell but inside the
canvas is drawn (here: cell (0,0) of width 26, pixel at canvas x = 30 is
blended to the foreground color), so the claim as stated is false. -/
theorem C9_cell_clip_counterexample :
    ¬ (∀ (g : GlyphCtx) (cv : Canvas) (dx dy : Nat) (c : ℚ),
        ¬ insideCellRect g (glyphX g dx) (glyphY g dy) →
        drawGlyphPixel g cv dx dy c = cv) := by
  intro hclaim
  have hout : ¬ insideCellRect glyphCtxEx (glyphX glyphCtxEx 30)
      (glyphY glyphCtxEx 0) := by
    simp only [insideCellRect, glyphX, glyphY, glyphCtxEx]
    norm_num
  have h2 := hclaim glyphCtxEx canvasEx 30 0 1 hout
  have h3 := congrArg (fun cv => cv.pix 30 0) h2
  simp only [drawGlyphPixel, glyphX, glyphY, glyphCtxEx, canvasEx, roundQ,
    Canvas.put, blendPix, blendChannel, qToU8] at h3
  norm_num at h3
  exact h3 (by decide)

/-- C9 (amended): the `outline.draw` closure discards exactly the pixels
whose canvas coordinates fall outside the *canvas* (`0 ≤ x < width`,
`0 ≤ y < height`); pixels inside the canvas are alpha-blended even when
they lie outside the cell's `ch_w × ch_h` rectangle, so glyphs may bleed
into neighboring cells. -/
theorem C9_canvas_clip (g : GlyphCtx) (cv : Canvas) (dx dy : Nat) (c : ℚ)
    (h : ¬ (0 ≤ glyphX g dx ∧ glyphX g dx < (cv.width : ℚ) ∧
            0 ≤ glyphY g dy ∧ glyphY g dy < (cv.height : ℚ))) :
    drawGlyphPixel g cv dx dy c = cv := by
  simp only [drawGlyphPixel, if_neg h]

/-- C9 witness: a pixel to the right of the canvas is discarded. -/
theorem C9_canvas_clip_witness :
    drawGlyphPixel glyphCtxEx canvasEx 100 0 1 = canvasEx :=
  C9_canvas_clip glyphCtxEx canvasEx 100 0 1 (by
    simp only [glyphX, glyphY, glyphCtxEx, canvasEx]
    norm_num)

/-! ## C10: byte-by-byte parsing of UTF-8 input -/

theorem takeStringLoop_passthrough (bs : List Char) :
    ∀ (buf : String) (rest : List Char),
      (∀ c ∈ bs, c ≠ '"' ∧ c ≠ '\\' ∧ c ≠ '\x00') →
      takeStringLoop (bs ++ '"' :: rest) buf = .ok (buf ++ String.mk bs, rest) := by
  induction bs with
  | nil =>
    intro buf rest h
    simp only [List.nil_append]
    unfold takeStringLoop
    simp only [reduceIte]
    exact congrArg (fun q => Except.ok (q, rest)) (String.ext (by simp))
  | cons c bs ih =>
    intro buf rest h
    obtain ⟨h1, h2, h3⟩ := h c (by simp)
    simp only [List.cons_append]
    unfold takeStringLoop
    simp only [h1, h2, h3, reduceIte]
    rw [ih (buf.push c) rest (fun d hd => h d (by simp [hd]))]
    apply congrArg (fun q => Except.ok (q, rest))
    apply String.ext
    simp

theorem utf8EncodeChar_ascii (c : Char) (h : c.toNat < 128) :
    String.utf8EncodeChar c = [c.val.toUInt8] := by
  have hv : c.val ≤ (0x7f : UInt32) := by
    rw [UInt32.le_def, BitVec.le_def]
    show c.toNat ≤ ((0x7f : UInt32).toBitVec).toNat
    have h127 : ((0x7f : UInt32).toBitVec).toNat = 127 := rfl
    omega
  simp [String.utf8EncodeChar, hv]

theorem toUInt8_toNat_ascii (c : Char) (h : c.toNat < 128) :
    (c.val.toUInt8).toNat = c.toNat := by
  simp only [UInt32.toUInt8, Nat.toUInt8, UInt8.ofNat, UInt8.toNat,
    BitVec.toNat_ofNat]
  show c.toNat % 2 ^ 8 = c.toNat
  omega

theorem bytesToChars_ascii : ∀ (l : List Char), (∀ c ∈ l, c.toNat < 128) →
    (l.flatMap String.utf8EncodeChar).map (fun b => Char.ofNat b.toNat) = l := by
  intro l
  induction l with
  | nil => intro h; simp
  | cons c tl ih =>
    intro h
    simp only [List.flatMap_cons, List.map_append]
    rw [utf8EncodeChar_ascii c (h c (by simp))]
    rw [ih (fun d hd => h d (by simp [hd]))]
    simp [toUInt8_toNat_ascii c (h c (by simp))]

theorem strBytes_ascii (s : String) (h : ∀ c ∈ s.data, c.toNat < 128) :
    strBytes s = s.data := by
  unfold strBytes
  exact bytesToChars_ascii s.data h

theorem flatMap_utf8_length_ge : ∀ (l : List Char),
    l.length ≤ (l.flatMap String.utf8EncodeChar).length := by
  intro l
  induction l with
  | nil => simp
  | cons c tl ih =>
    simp only [List.flatMap_cons, List.length_append, List.length_cons,
      String.length_utf8EncodeChar]
    have := c.utf8Size_pos
    omega

theorem utf8Size_ge_two (c : Char) (h : 128 ≤ c.toNat) : 2 ≤ c.utf8Size := by
  simp only [Char.utf8Size]
  split
  · rename_i hle
    exfalso
    rw [UInt32.le_def, BitVec.le_def] at hle
    have hcn : c.val.toBitVec.toNat = c.toNat := rfl
    have h127 : ((UInt32.ofNatCore 0x7F (by decide)).toBitVec).toNat = 127 := rfl
    omega
  · split
    · omega
    · split <;> omega

theorem flatMap_utf8_length_gt : ∀ (l : List Char) (c0 : Char), c0 ∈ l →
    128 ≤ c0.toNat → l.length < (l.flatMap String.utf8EncodeChar).length := by
  intro l
  induction l with
  | nil => intro c0 hm; simp at hm
  | cons c tl ih =>
    intro c0 hm hge
    simp only [List.flatMap_cons, List.length_append, List.length_cons,
      String.length_utf8EncodeChar]
    rcases List.mem_cons.mp hm with rfl | hm2
    · have h2 := utf8Size_ge_two c0 hge
      have := flatMap_utf8_length_ge tl
      omega
    · have := ih c0 hm2 hge
      have := c.utf8Size_pos
      omega

theorem C10_byte_parsing (s : String) (rest : List Char)
    (hb : ∀ c ∈ strBytes s, c ≠ '"' ∧ c ≠ '\\' ∧ c ≠ '\x00') :
    (takeStringLoop (strBytes s ++ '"' :: rest) "" =
      .ok (String.mk (strBytes s), rest)) ∧
    ((∀ c ∈ s.data, c.toNat < 128) → String.mk (strBytes s) = s) ∧
    ((∃ c ∈ s.data, 128 ≤ c.toNat) → String.mk (strBytes s) ≠ s) := by
  refine ⟨?_, ?_, ?_⟩
  · have hp := takeStringLoop_passthrough (strBytes s) "" rest hb
    simpa using hp
  · intro hascii
    rw [strBytes_ascii s hascii]
  · rintro ⟨c0, hm, hge⟩ heq
    have hdata : strBytes s = s.data := congrArg String.data heq
    have hlen : (strBytes s).length = s.data.length := by rw [hdata]
    have hfl : (s.data.flatMap String.utf8EncodeChar).length = s.data.length := by
      simpa [strBytes] using hlen
    have hgt := flatMap_utf8_length_gt s.data c0 hm hge
    omega

theorem C10_byte_parsing_witness :
    (takeStringLoop (strBytes "é" ++ '"' :: []) "" =
      .ok (String.mk (strBytes "é"), [])) ∧
    String.mk (strBytes "é") ≠ "é" :=
  ⟨(C10_byte_parsing "é" [] (by decide)).1,
   (C10_byte_parsing "é" [] (by decide)).2.2 ⟨'é', by decide, by decide⟩⟩

end VT
